import Mathlib

/-!
Verification of the incremental decision-tree core (`creme/tree/leaf.py`).

The embedding mirrors the source module: `Leaf` and the `Node` variants
(`leaf`/`branch`) correspond to the `Leaf` and `Branch` classes, and the
external collaborators (target distributions, split enumerators, the impurity
criterion and the shared tree configuration) are gathered in a `Ctx` record of
interface operations, matching the boundary the module consumes them through.
Floating point arithmetic is idealised as real arithmetic; the `-inf`
initialisation of the split-search accumulators is modelled with `EReal`.
Python exceptions are modelled with `Except`, and Python's in-place mutation of
a leaf is modelled by returning the updated leaf state.
-/

namespace Creme

/-- A candidate split: a binary test over a feature vector together with the
impurity the split would achieve.  This is the interface of the objects
produced by `creme.tree.splitting` enumerators and stored by a `Branch`. -/
structure SplitCand (F V : Type) where
  test : List (F × V) → Bool
  impurity : ℝ

/-- The shared tree context plus the interfaces of the external collaborators
(target distribution of type `D`, per-feature split enumerators of type `S`).
Fields `max_depth`, `confidence`, `patience`, `tie_threshold`, `criterion`
model the attributes read from `self.tree`; the `dist*` fields model the
operations consumed from a target distribution (`update`, `isinstance`
check against `ContinuousDistribution`, `len`, default construction,
iteration, `pmf`, `mode`); the `enum*` fields model the operations consumed
from a split enumerator (`update`, `enumerate_splits`, `items`).
`pyTrue`/`pyFalse` are the label values used by the source's child seeding
`target_dist.__class__().update(True).update(False)`. -/
structure Ctx (F V Y D S : Type) where
  max_depth : ℕ
  confidence : ℝ
  patience : ℕ
  tie_threshold : ℝ
  criterion : D → ℝ
  distUpdate : D → Y → D
  distIsCont : D → Bool
  distLen : D → ℕ
  distFresh : D
  distClasses : D → List Y
  distPmf : D → Y → ℝ
  distMode : D → ℝ
  pyTrue : Y
  pyFalse : Y
  isNumber : V → Bool
  mkHistEnum : F → S
  mkCatEnum : F → S
  enumUpdate : S → V → Y → S
  enumSplits : S → D → (D → ℝ) → List (SplitCand F V)
  enumItems : S → List (Y × (V → ℝ))

/-- The state of a `Leaf`: its depth, its owned target distribution, the
number of absorbed examples, and the per-feature split enumerators
(an insertion-ordered association list, mirroring a Python dict). -/
structure Leaf (F V Y D S : Type) where
  depth : ℕ
  target_dist : D
  n_samples : ℕ
  split_enums : List (F × S)

/-- A tree node is a `Leaf` or a `Branch`; a `Branch` stores its split test
and its two children, mirroring the `Branch` class. -/
inductive Node (F V Y D S : Type) where
  | leaf : Leaf F V Y D S → Node F V Y D S
  | branch : SplitCand F V → Node F V Y D S → Node F V Y D S → Node F V Y D S

variable {F V Y D S : Type} [DecidableEq F] [DecidableEq Y]

/-- Dictionary lookup in the `split_enums` association list. -/
def lookupEnum (i : F) : List (F × S) → Option S
  | [] => none
  | (j, s) :: rest => if i = j then some s else lookupEnum i rest

/-- Dictionary overwrite of an existing key in `split_enums` (in-place
mutation of the stored enumerator keeps the key's position). -/
def setEnum (i : F) (s : S) : List (F × S) → List (F × S)
  | [] => []
  | (j, t) :: rest => if i = j then (j, s) :: rest else (j, t) :: setEnum i s rest

/-- Source `Leaf.n_classes`: the number of observed classes; raises `ValueError`
when the target distribution is continuous. -/
def Leaf.n_classes (ctx : Ctx F V Y D S) (l : Leaf F V Y D S) : Except String ℕ :=
  if ctx.distIsCont l.target_dist then
    .error "The target is continuous, hence there are not classes"
  else
    .ok (ctx.distLen l.target_dist)

/-- Source `Leaf.is_pure`: fewer than 2 observed classes; the `ValueError` raised for
a continuous target is caught and turned into `False`. -/
def Leaf.is_pure (ctx : Ctx F V Y D S) (l : Leaf F V Y D S) : Bool :=
  match Leaf.n_classes ctx l with
  | .ok n => decide (n < 2)
  | .error _ => false

/-- The closed form computed by `Leaf.hoeffding_bound`:
`sqrt(R^2 * log2(1/confidence) / (2*n))` with `R = ln(n_classes)`.
Note the source uses `math.log` (natural) for `R` and `math.log2` for the
confidence term. -/
noncomputable def hb (c n : ℕ) (conf : ℝ) : ℝ :=
  Real.sqrt ((Real.log c) ^ 2 * Real.logb 2 (1 / conf) / (2 * n))

/-- Source `Leaf.hoeffding_bound`: the current Hoeffding bound; propagates the
`ValueError` of `n_classes` on a continuous target. -/
noncomputable def Leaf.hoeffding_bound (ctx : Ctx F V Y D S) (l : Leaf F V Y D S) :
    Except String ℝ :=
  match Leaf.n_classes ctx l with
  | .error e => .error e
  | .ok c => .ok (hb c l.n_samples ctx.confidence)

/-- The running state of `find_best_split`: best gain, second best gain
(both initialised to `-inf`, hence `EReal`), and the best split found. -/
structure SearchState (F V : Type) where
  best_gain : EReal
  second_best_gain : EReal
  best_split : Option (SplitCand F V)

/-- One step of the candidate scan in `find_best_split`: the gain of the
candidate is `current_impurity - split.impurity`; a strictly better gain
shifts the best to second best, otherwise only the second best may move. -/
noncomputable def scanCand (ci : ℝ) (st : SearchState F V) (c : SplitCand F V) :
    SearchState F V :=
  let gain : EReal := ((ci - c.impurity : ℝ) : EReal)
  if st.best_gain < gain then
    ⟨gain, st.best_gain, some c⟩
  else if st.second_best_gain < gain then
    ⟨st.best_gain, gain, st.best_split⟩
  else
    st

/-- The flat list of split candidates proposed by all of the leaf's split
enumerators, in dictionary order (the two nested loops of
`find_best_split`). -/
def Leaf.candidates (ctx : Ctx F V Y D S) (l : Leaf F V Y D S) :
    List (SplitCand F V) :=
  (l.split_enums.map (fun p => ctx.enumSplits p.2 l.target_dist ctx.criterion)).flatten

/-- The scan of `find_best_split` over a candidate list. -/
noncomputable def searchFold (ci : ℝ) (cs : List (SplitCand F V)) : SearchState F V :=
  cs.foldl (scanCand ci) ⟨⊥, ⊥, none⟩

/-- The gain a candidate would incur, as an extended real. -/
noncomputable def gainOf (ci : ℝ) (c : SplitCand F V) : EReal :=
  ((ci - c.impurity : ℝ) : EReal)

/-- The largest gain over a candidate list (`-inf` when empty). -/
noncomputable def supGain (ci : ℝ) (cs : List (SplitCand F V)) : EReal :=
  cs.foldl (fun b c => max b (gainOf ci c)) ⊥

/-- Source `Leaf.find_best_split`: returns the best split candidate together with
`best_gain - second_best_gain`; raises `RuntimeError` when no candidate was
produced at all. -/
noncomputable def Leaf.find_best_split (ctx : Ctx F V Y D S) (l : Leaf F V Y D S) :
    Except String (SplitCand F V × EReal) :=
  match (searchFold (ctx.criterion l.target_dist) (Leaf.candidates ctx l)).best_split with
  | none => .error "No best split was found"
  | some s =>
      .ok (s, (searchFold (ctx.criterion l.target_dist) (Leaf.candidates ctx l)).best_gain -
        (searchFold (ctx.criterion l.target_dist) (Leaf.candidates ctx l)).second_best_gain)

/-- One step of the feature loop of `Leaf.update`: update the feature's
enumerator, creating it first (histogram enumerator for a numeric value,
categorical enumerator otherwise) when the feature is seen for the first
time. -/
def updateOneEnum (ctx : Ctx F V Y D S) (y : Y) (es : List (F × S)) (ix : F × V) :
    List (F × S) :=
  match lookupEnum ix.1 es with
  | some ss => setEnum ix.1 (ctx.enumUpdate ss ix.2 y) es
  | none =>
      es ++ [(ix.1,
        ctx.enumUpdate
          (if ctx.isNumber ix.2 then ctx.mkHistEnum ix.1 else ctx.mkCatEnum ix.1)
          ix.2 y)]

/-- The statistics-absorption prefix of `Leaf.update`: feed the label to the
target distribution, increment `n_samples`, and update every feature's
split enumerator.  This is the state the source's `self` holds when the
split-eligibility check runs. -/
def leafAbsorb (ctx : Ctx F V Y D S) (l : Leaf F V Y D S) (x : List (F × V)) (y : Y) :
    Leaf F V Y D S :=
  { depth := l.depth
    target_dist := ctx.distUpdate l.target_dist y
    n_samples := l.n_samples + 1
    split_enums := x.foldl (updateOneEnum ctx y) l.split_enums }

/-- The target distribution given to each fresh child on a split:
`target_dist.__class__().update(True).update(False)`. -/
def childDist (ctx : Ctx F V Y D S) : D :=
  ctx.distUpdate (ctx.distUpdate ctx.distFresh ctx.pyTrue) ctx.pyFalse

/-- A fresh child `Leaf` built on a split: depth is the parent's depth plus
one, the distribution is the seeded fresh one, and the constructor sets
`n_samples = 0` and `split_enums = {}`. -/
def childLeaf (ctx : Ctx F V Y D S) (d : ℕ) : Leaf F V Y D S :=
  ⟨d + 1, childDist ctx, 0, []⟩

/-- The condition under which `Leaf.update` returns without attempting a
split: the depth limit is reached, the leaf is pure, or `n_samples` is off
the `patience` cadence. -/
def splitGuard (ctx : Ctx F V Y D S) (l : Leaf F V Y D S) : Prop :=
  ctx.max_depth ≤ l.depth ∨ Leaf.is_pure ctx l = true ∨
    l.n_samples % ctx.patience ≠ 0

instance (ctx : Ctx F V Y D S) (l : Leaf F V Y D S) : Decidable (splitGuard ctx l) :=
  inferInstanceAs (Decidable (ctx.max_depth ≤ l.depth ∨ Leaf.is_pure ctx l = true ∨
    l.n_samples % ctx.patience ≠ 0))

/-- Source `Leaf.update`: absorb one example, then, unless the depth limit is hit,
the leaf is pure, or `n_samples` is off the `patience` cadence, search for
the best split and split when the margin beats the Hoeffding bound or the
bound fell under `tie_threshold`. -/
noncomputable def Leaf.update (ctx : Ctx F V Y D S) (l : Leaf F V Y D S)
    (x : List (F × V)) (y : Y) : Except String (Node F V Y D S) :=
  if splitGuard ctx (leafAbsorb ctx l x y) then
    .ok (.leaf (leafAbsorb ctx l x y))
  else
    match Leaf.find_best_split ctx (leafAbsorb ctx l x y) with
    | .error e => .error e
    | .ok (s, gain) =>
        match Leaf.hoeffding_bound ctx (leafAbsorb ctx l x y) with
        | .error e => .error e
        | .ok eps =>
            if (eps : EReal) < gain ∨ eps < ctx.tie_threshold then
              .ok (.branch s
                (.leaf (childLeaf ctx (leafAbsorb ctx l x y).depth))
                (.leaf (childLeaf ctx (leafAbsorb ctx l x y).depth)))
            else
              .ok (.leaf (leafAbsorb ctx l x y))

/-- Source `Branch.update` together with leaf dispatch: a leaf delegates to `Leaf.update`; a branch routes the
example with its split test, updates that child, installs the returned node
in the chosen child slot and returns itself. -/
noncomputable def Node.update (ctx : Ctx F V Y D S) :
    Node F V Y D S → List (F × V) → Y → Except String (Node F V Y D S)
  | .leaf l, x, y => Leaf.update ctx l x y
  | .branch s left right, x, y =>
      if s.test x then
        (Node.update ctx left x y).map (fun n => .branch s n right)
      else
        (Node.update ctx right x y).map (fun n => .branch s left n)

/-- The result shape of `Leaf.predict`: a scalar for a continuous target,
a class-to-probability mapping for a discrete one. -/
inductive Prediction (Y : Type) where
  | scalar : ℝ → Prediction Y
  | dist : List (Y × ℝ) → Prediction Y

/-- The discrete branch of `Leaf.predict`:
`{c: target_dist.pmf(c) for c in target_dist}`. -/
def Leaf.predictDist (ctx : Ctx F V Y D S) (l : Leaf F V Y D S) : List (Y × ℝ) :=
  (ctx.distClasses l.target_dist).map (fun c => (c, ctx.distPmf l.target_dist c))

/-- Source `Leaf.predict`: the distribution's mode for a continuous target, the
pmf snapshot for a discrete one. -/
def Leaf.predict (ctx : Ctx F V Y D S) (l : Leaf F V Y D S) : Prediction Y :=
  if ctx.distIsCont l.target_dist then .scalar (ctx.distMode l.target_dist)
  else .dist (Leaf.predictDist ctx l)

/-- Score multiplication `y_pred[label] *= v`: multiply the running score of `label`; `none`
models the `KeyError` raised when the label is absent from `y_pred`. -/
def mulEntry (lab : Y) (v : ℝ) : List (Y × ℝ) → Option (List (Y × ℝ))
  | [] => none
  | (c, p) :: rest =>
      if lab = c then some ((c, p * v) :: rest)
      else (mulEntry lab v rest).map (fun r => (c, p) :: r)

/-- The inner loop of `predict_naive_bayes` over one enumerator's
`(label, distribution)` items: each known label's score is multiplied by the
likelihood (pdf or pmf) of the observed value. -/
def applyItems (xi : V) : List (Y × (V → ℝ)) → List (Y × ℝ) → Option (List (Y × ℝ))
  | [], yp => some yp
  | (lab, lik) :: rest, yp =>
      match mulEntry lab (lik xi) yp with
      | none => none
      | some yp2 => applyItems xi rest yp2

/-- The outer loop of `predict_naive_bayes` over the feature vector:
features with no split enumerator at this leaf are skipped. -/
def applyFeatures (ctx : Ctx F V Y D S) (enums : List (F × S)) :
    List (F × V) → List (Y × ℝ) → Option (List (Y × ℝ))
  | [], yp => some yp
  | (i, xi) :: rest, yp =>
      match lookupEnum i enums with
      | none => applyFeatures ctx enums rest yp
      | some ss =>
          match applyItems xi (ctx.enumItems ss) yp with
          | none => none
          | some yp2 => applyFeatures ctx enums rest yp2

/-- Source `Leaf.predict_naive_bayes`: start from the `predict` mapping, fold in the
per-feature likelihoods, then normalise; when the total score is exactly zero
return the uniform distribution over the mapping's classes instead.  On a
continuous target `predict` returns a scalar and the subsequent dictionary
operations fail, modelled as an error. -/
noncomputable def Leaf.predict_naive_bayes (ctx : Ctx F V Y D S) (l : Leaf F V Y D S)
    (x : List (F × V)) : Except String (List (Y × ℝ)) :=
  if ctx.distIsCont l.target_dist then
    .error "naive Bayes requires a discrete target"
  else
    match applyFeatures ctx l.split_enums x (Leaf.predictDist ctx l) with
    | none => .error "KeyError"
    | some y1 =>
        if (y1.map Prod.snd).sum = 0 then
          .ok (y1.map (fun p => (p.1, 1 / (y1.length : ℝ))))
        else
          .ok (y1.map (fun p => (p.1, p.2 / (y1.map Prod.snd).sum)))

/-- Invariant of the split scan: either no best split has been recorded yet
and the best gain is still `-inf`, or the recorded best split is a candidate
from `A` and the best gain is exactly its gain. -/
def SearchInv (ci : ℝ) (A : List (SplitCand F V)) (st : SearchState F V) : Prop :=
  (st.best_split = none ∧ st.best_gain = ⊥) ∨
    ∃ c, st.best_split = some c ∧ st.best_gain = gainOf ci c ∧ c ∈ A

/-- A concrete split candidate used to instantiate the interface in
worked examples. -/
def candB : SplitCand ℕ ℕ := ⟨fun _ => true, 0⟩

/-- A concrete discrete-target instantiation of the external interfaces:
the distribution state is a natural number reporting the number of observed
classes (any update yields 2 observed classes), every enumerator proposes
the single candidate `candB` with impurity 0, and the impurity criterion is
constantly 0.  Used to exercise the theorems on closed inputs. -/
noncomputable def ctxT : Ctx ℕ ℕ Bool ℕ Unit where
  max_depth := 5
  confidence := 1/2
  patience := 1
  tie_threshold := 0
  criterion := fun _ => 0
  distUpdate := fun _ _ => 2
  distIsCont := fun _ => false
  distLen := fun d => d
  distFresh := 0
  distClasses := fun d => if d = 0 then [] else [true]
  distPmf := fun _ _ => 1
  distMode := fun _ => 0
  pyTrue := true
  pyFalse := false
  isNumber := fun _ => true
  mkHistEnum := fun _ => ()
  mkCatEnum := fun _ => ()
  enumUpdate := fun _ _ _ => ()
  enumSplits := fun _ _ _ => [candB]
  enumItems := fun _ => [(true, fun _ => 1)]

/-- A continuous-target instantiation of the external interfaces. -/
def ctxC : Ctx ℕ ℕ Bool ℕ Unit where
  max_depth := 5
  confidence := 0
  patience := 1
  tie_threshold := 0
  criterion := fun _ => 0
  distUpdate := fun _ _ => 0
  distIsCont := fun _ => true
  distLen := fun _ => 0
  distFresh := 0
  distClasses := fun _ => []
  distPmf := fun _ _ => 0
  distMode := fun _ => 0
  pyTrue := true
  pyFalse := false
  isNumber := fun _ => true
  mkHistEnum := fun _ => ()
  mkCatEnum := fun _ => ()
  enumUpdate := fun _ _ _ => ()
  enumSplits := fun _ _ _ => []
  enumItems := fun _ => []

/-- A fresh leaf at the root. -/
def leafT : Leaf ℕ ℕ Bool ℕ Unit := ⟨0, 0, 0, []⟩

/-- A leaf already past the depth limit of `ctxT`. -/
def leafT7 : Leaf ℕ ℕ Bool ℕ Unit := ⟨7, 0, 0, []⟩

/-- The state of `leafT` after absorbing one example with one feature. -/
def leafT1 : Leaf ℕ ℕ Bool ℕ Unit := ⟨0, 2, 1, [(0, ())]⟩

/-- A leaf with two observed classes and one observed sample. -/
def leafA : Leaf ℕ ℕ Bool ℕ Unit := ⟨0, 2, 1, []⟩

/-- A leaf whose target distribution reports one observed class and that
owns one split enumerator. -/
def leafNB : Leaf ℕ ℕ Bool ℕ Unit := ⟨0, 1, 1, [(0, ())]⟩

/-- A one-feature input vector. -/
def xT : List (ℕ × ℕ) := [(0, 3)]

theorem scanCand_best_gain (ci : ℝ) (st : SearchState F V) (c : SplitCand F V) :
    (scanCand ci st c).best_gain = max st.best_gain (gainOf ci c) := by
  simp only [scanCand, gainOf]
  split_ifs with h1 h2
  · exact (max_eq_right h1.le).symm
  · exact (max_eq_left (not_lt.mp h1)).symm
  · exact (max_eq_left (not_lt.mp h1)).symm

theorem scanCand_isSome (ci : ℝ) (st : SearchState F V) (c : SplitCand F V)
    (h : st.best_split.isSome = true) : (scanCand ci st c).best_split.isSome = true := by
  simp only [scanCand]
  split_ifs <;> simp [h]

theorem scanCand_bot (ci : ℝ) (c : SplitCand F V) :
    scanCand ci ⟨⊥, ⊥, none⟩ c = ⟨gainOf ci c, ⊥, some c⟩ := by
  simp only [scanCand, gainOf]
  rw [if_pos (EReal.bot_lt_coe _)]

theorem foldl_scanCand_isSome (ci : ℝ) (cs : List (SplitCand F V)) :
    ∀ st : SearchState F V, st.best_split.isSome = true →
      (cs.foldl (scanCand ci) st).best_split.isSome = true := by
  induction cs with
  | nil => intro st h; exact h
  | cons c rest ih =>
      intro st h
      rw [List.foldl_cons]
      exact ih _ (scanCand_isSome ci st c h)

theorem searchFold_isSome (ci : ℝ) (c : SplitCand F V) (rest : List (SplitCand F V)) :
    (searchFold ci (c :: rest)).best_split.isSome = true := by
  unfold searchFold
  rw [List.foldl_cons, scanCand_bot]
  exact foldl_scanCand_isSome ci rest _ rfl

theorem foldl_scanCand_best_gain (ci : ℝ) (cs : List (SplitCand F V)) :
    ∀ st : SearchState F V,
      (cs.foldl (scanCand ci) st).best_gain =
        cs.foldl (fun b c => max b (gainOf ci c)) st.best_gain := by
  induction cs with
  | nil => intro st; rfl
  | cons c rest ih =>
      intro st
      rw [List.foldl_cons, List.foldl_cons, ih, scanCand_best_gain]

theorem searchFold_best_gain (ci : ℝ) (cs : List (SplitCand F V)) :
    (searchFold ci cs).best_gain = supGain ci cs :=
  foldl_scanCand_best_gain ci cs ⟨⊥, ⊥, none⟩

theorem scanCand_inv {ci : ℝ} {A : List (SplitCand F V)} {st : SearchState F V}
    {c : SplitCand F V} (hc : c ∈ A) (h : SearchInv ci A st) :
    SearchInv ci A (scanCand ci st c) := by
  simp only [scanCand]
  split_ifs with h1 h2
  · exact Or.inr ⟨c, rfl, rfl, hc⟩
  · cases h with
    | inl h0 => exact Or.inl ⟨h0.1, h0.2⟩
    | inr h0 =>
        obtain ⟨d, hd1, hd2, hd3⟩ := h0
        exact Or.inr ⟨d, hd1, hd2, hd3⟩
  · exact h

theorem foldl_scanCand_inv (ci : ℝ) (A : List (SplitCand F V)) :
    ∀ cs : List (SplitCand F V), (∀ c ∈ cs, c ∈ A) →
      ∀ st : SearchState F V, SearchInv ci A st →
        SearchInv ci A (cs.foldl (scanCand ci) st) := by
  intro cs
  induction cs with
  | nil => intro _ st h; exact h
  | cons c rest ih =>
      intro hsub st h
      rw [List.foldl_cons]
      exact ih (fun d hd => hsub d (List.mem_cons_of_mem c hd)) _
        (scanCand_inv (hsub c (List.mem_cons_self c rest)) h)

theorem searchFold_inv (ci : ℝ) (cs : List (SplitCand F V)) :
    SearchInv ci cs (searchFold ci cs) :=
  foldl_scanCand_inv ci cs cs (fun _ h => h) _ (Or.inl ⟨rfl, rfl⟩)

theorem find_best_split_singleton (ctx : Ctx F V Y D S) (l : Leaf F V Y D S)
    (c : SplitCand F V) (hc : Leaf.candidates ctx l = [c]) :
    Leaf.find_best_split ctx l = .ok (c, ⊤) := by
  unfold Leaf.find_best_split
  rw [hc]
  unfold searchFold
  rw [List.foldl_cons, List.foldl_nil, scanCand_bot]
  show Except.ok (c, gainOf (ctx.criterion l.target_dist) c - ⊥) = Except.ok (c, ⊤)
  rw [show gainOf (ctx.criterion l.target_dist) c - (⊥ : EReal) = ⊤ from
    EReal.coe_sub_bot _]

theorem update_reaches (ctx : Ctx F V Y D S) (l : Leaf F V Y D S)
    (x : List (F × V)) (y : Y) (s : SplitCand F V) (g : EReal) (eps : ℝ)
    (hg : ¬ splitGuard ctx (leafAbsorb ctx l x y))
    (hfbs : Leaf.find_best_split ctx (leafAbsorb ctx l x y) = .ok (s, g))
    (hhb : Leaf.hoeffding_bound ctx (leafAbsorb ctx l x y) = .ok eps) :
    Leaf.update ctx l x y =
      if (eps : EReal) < g ∨ eps < ctx.tie_threshold then
        .ok (.branch s (.leaf (childLeaf ctx (leafAbsorb ctx l x y).depth))
          (.leaf (childLeaf ctx (leafAbsorb ctx l x y).depth)))
      else
        .ok (.leaf (leafAbsorb ctx l x y)) := by
  simp only [Leaf.update]
  rw [if_neg hg]
  split
  · next e heq =>
      rw [hfbs] at heq
      exact absurd heq (by simp)
  · next s0 g0 heq =>
      rw [hfbs] at heq
      simp only [Except.ok.injEq, Prod.mk.injEq] at heq
      obtain ⟨h1, h2⟩ := heq
      subst h1
      subst h2
      split
      · next e heq2 =>
          rw [hhb] at heq2
          exact absurd heq2 (by simp)
      · next eps0 heq2 =>
          rw [hhb] at heq2
          simp only [Except.ok.injEq] at heq2
          subst heq2
          rfl

theorem update_search_error (ctx : Ctx F V Y D S) (l : Leaf F V Y D S)
    (x : List (F × V)) (y : Y) (e : String)
    (hg : ¬ splitGuard ctx (leafAbsorb ctx l x y))
    (hfbs : Leaf.find_best_split ctx (leafAbsorb ctx l x y) = .error e) :
    Leaf.update ctx l x y = .error e := by
  simp only [Leaf.update]
  rw [if_neg hg]
  split
  · next e0 heq =>
      rw [hfbs] at heq
      simp only [Except.error.injEq] at heq
      rw [heq]
  · next s0 g0 heq =>
      rw [hfbs] at heq
      exact absurd heq (by simp)

theorem update_hb_error (ctx : Ctx F V Y D S) (l : Leaf F V Y D S)
    (x : List (F × V)) (y : Y) (s : SplitCand F V) (g : EReal) (e : String)
    (hg : ¬ splitGuard ctx (leafAbsorb ctx l x y))
    (hfbs : Leaf.find_best_split ctx (leafAbsorb ctx l x y) = .ok (s, g))
    (hhb : Leaf.hoeffding_bound ctx (leafAbsorb ctx l x y) = .error e) :
    Leaf.update ctx l x y = .error e := by
  simp only [Leaf.update]
  rw [if_neg hg]
  split
  · next e0 heq =>
      rw [hfbs] at heq
      exact absurd heq (by simp)
  · next s0 g0 heq =>
      rw [hfbs] at heq
      simp only [Except.ok.injEq, Prod.mk.injEq] at heq
      obtain ⟨h1, h2⟩ := heq
      subst h1
      subst h2
      split
      · next e0 heq2 =>
          rw [hhb] at heq2
          simp only [Except.error.injEq] at heq2
          rw [heq2]
      · next eps0 heq2 =>
          rw [hhb] at heq2
          exact absurd heq2 (by simp)

theorem candsT : Leaf.candidates ctxT leafT1 = [candB] := rfl

theorem fbsT : Leaf.find_best_split ctxT leafT1 = .ok (candB, ⊤) :=
  find_best_split_singleton ctxT leafT1 candB candsT

theorem hbT : Leaf.hoeffding_bound ctxT leafT1 = .ok (hb 2 1 (1/2)) := rfl

/-- Claim C2: when, after absorbing the example, the leaf's depth has reached
`max_depth`, or the leaf is pure, or `n_samples` is not an exact multiple of
`patience`, `Leaf.update` returns the same leaf (with its absorbed
statistics): no split search is consulted and no structural change occurs. -/
theorem update_no_split_when_ineligible (ctx : Ctx F V Y D S) (l : Leaf F V Y D S)
    (x : List (F × V)) (y : Y) (h : splitGuard ctx (leafAbsorb ctx l x y)) :
    Leaf.update ctx l x y = .ok (.leaf (leafAbsorb ctx l x y)) := by
  simp only [Leaf.update]
  rw [if_pos h]

/-- Witness for claim C2: a leaf at depth 7 under a depth limit of 5 absorbs
an example and stays a leaf. -/
theorem update_no_split_when_ineligible_witness :
    Leaf.update ctxT leafT7 xT true = .ok (.leaf (leafAbsorb ctxT leafT7 xT true)) :=
  update_no_split_when_ineligible ctxT leafT7 xT true (by decide)

/-- Claim C3: when the split check is reached, the quantity compared to the
Hoeffding bound is exactly the margin returned by `find_best_split` — which
is `best_gain - second_best_gain` of the scan, not the raw best gain — and
`Leaf.update` returns a newly built branch precisely when that margin
strictly exceeds the bound or the bound is strictly below `tie_threshold`;
otherwise it returns the same leaf. -/
theorem update_split_decision (ctx : Ctx F V Y D S) (l : Leaf F V Y D S)
    (x : List (F × V)) (y : Y) (s : SplitCand F V) (g : EReal) (eps : ℝ)
    (hg : ¬ splitGuard ctx (leafAbsorb ctx l x y))
    (hfbs : Leaf.find_best_split ctx (leafAbsorb ctx l x y) = .ok (s, g))
    (hhb : Leaf.hoeffding_bound ctx (leafAbsorb ctx l x y) = .ok eps) :
    (Leaf.update ctx l x y =
      if (eps : EReal) < g ∨ eps < ctx.tie_threshold then
        .ok (.branch s (.leaf (childLeaf ctx (leafAbsorb ctx l x y).depth))
          (.leaf (childLeaf ctx (leafAbsorb ctx l x y).depth)))
      else
        .ok (.leaf (leafAbsorb ctx l x y))) ∧
    g = (searchFold (ctx.criterion (leafAbsorb ctx l x y).target_dist)
          (Leaf.candidates ctx (leafAbsorb ctx l x y))).best_gain -
        (searchFold (ctx.criterion (leafAbsorb ctx l x y).target_dist)
          (Leaf.candidates ctx (leafAbsorb ctx l x y))).second_best_gain := by
  refine ⟨update_reaches ctx l x y s g eps hg hfbs hhb, ?_⟩
  have h2 := hfbs
  unfold Leaf.find_best_split at h2
  split at h2
  · exact absurd h2 (by simp)
  · next s0 heq =>
      simp only [Except.ok.injEq, Prod.mk.injEq] at h2
      exact h2.2.symm

/-- Witness for claim C3: on the concrete splitting run the margin handed to
the Hoeffding comparison is the scan's `best_gain - second_best_gain`
(here `+inf`, the second best staying at `-inf`). -/
theorem update_split_decision_witness :
    (⊤ : EReal) = (searchFold (0 : ℝ) [candB]).best_gain -
      (searchFold (0 : ℝ) [candB]).second_best_gain :=
  (update_split_decision ctxT leafT xT true candB ⊤ (hb 2 1 (1/2))
    (by decide) fbsT hbT).2

/-- Concrete splitting run shared by the worked examples: the single
candidate's infinite margin makes the toy leaf split. -/
theorem updT : Leaf.update ctxT leafT xT true =
    .ok (.branch candB (.leaf (childLeaf ctxT 0)) (.leaf (childLeaf ctxT 0))) := by
  have h := update_reaches ctxT leafT xT true candB ⊤ (hb 2 1 (1/2))
    (by decide) fbsT hbT
  rw [h, if_pos (Or.inl (EReal.coe_lt_top _))]
  rfl

/-- Claim C4: whenever `Leaf.update` returns a branch, both children are
fresh leaves at the parent's depth plus one, their target distribution is a
default-constructed distribution of the parent's kind seeded with the two
placeholder updates `True` then `False`, their sample count is zero and
they own no split enumerators — none of the parent's statistics are
transferred. -/
theorem split_children_fresh (ctx : Ctx F V Y D S) (l : Leaf F V Y D S)
    (x : List (F × V)) (y : Y) (s : SplitCand F V) (a b : Node F V Y D S)
    (h : Leaf.update ctx l x y = .ok (.branch s a b)) :
    a = .leaf (childLeaf ctx l.depth) ∧ b = .leaf (childLeaf ctx l.depth) := by
  simp only [Leaf.update] at h
  split at h
  · exact absurd h (by simp)
  · split at h
    · exact absurd h (by simp)
    · next s0 g0 heq =>
        split at h
        · exact absurd h (by simp)
        · next eps0 heq2 =>
            split at h
            · simp only [Except.ok.injEq, Node.branch.injEq] at h
              exact ⟨h.2.1.symm, h.2.2.symm⟩
            · exact absurd h (by simp)

/-- Witness for claim C4: the children of the toy split are the fresh seeded
leaves at depth `parent + 1`. -/
theorem split_children_fresh_witness :
    Node.leaf (childLeaf ctxT 0) = Node.leaf (childLeaf ctxT leafT.depth) ∧
    (Node.leaf (childLeaf ctxT 0) : Node ℕ ℕ Bool ℕ Unit) =
      Node.leaf (childLeaf ctxT leafT.depth) :=
  split_children_fresh ctxT leafT xT true candB _ _ updT

/-- Claim C5: for a continuous target that has observed at least one feature,
an update that passes the split-eligibility gate (depth below the limit,
sample count on the patience cadence; purity is never asserted for a
continuous target) ends in an error, never in a node: the Hoeffding bound's
class-count query fails on a continuous target, and that is precisely the
error `update` surfaces whenever the split search itself succeeded. -/
theorem continuous_target_split_check_errors (ctx : Ctx F V Y D S)
    (l : Leaf F V Y D S) (x : List (F × V)) (y : Y)
    (hcont : ctx.distIsCont (leafAbsorb ctx l x y).target_dist = true)
    (hdepth : (leafAbsorb ctx l x y).depth < ctx.max_depth)
    (hpat : (leafAbsorb ctx l x y).n_samples % ctx.patience = 0)
    (hfeat : (leafAbsorb ctx l x y).split_enums ≠ []) :
    (∃ e, Leaf.update ctx l x y = .error e) ∧
    (∃ e, Leaf.hoeffding_bound ctx (leafAbsorb ctx l x y) = .error e) ∧
    (∀ s g, Leaf.find_best_split ctx (leafAbsorb ctx l x y) = .ok (s, g) →
      Leaf.update ctx l x y =
        .error "The target is continuous, hence there are not classes") := by
  have hpure : Leaf.is_pure ctx (leafAbsorb ctx l x y) = false := by
    simp [Leaf.is_pure, Leaf.n_classes, hcont]
  have hg : ¬ splitGuard ctx (leafAbsorb ctx l x y) := by
    unfold splitGuard
    push_neg
    exact ⟨hdepth, by simp [hpure], hpat⟩
  have hberr : Leaf.hoeffding_bound ctx (leafAbsorb ctx l x y) =
      .error "The target is continuous, hence there are not classes" := by
    simp [Leaf.hoeffding_bound, Leaf.n_classes, hcont]
  refine ⟨?_, ⟨_, hberr⟩, ?_⟩
  · cases hfb : Leaf.find_best_split ctx (leafAbsorb ctx l x y) with
    | error e => exact ⟨e, update_search_error ctx l x y e hg hfb⟩
    | ok p =>
        exact ⟨_, update_hb_error ctx l x y p.1 p.2 _ hg (by rw [hfb]) hberr⟩
  · intro s g hfb
    exact update_hb_error ctx l x y s g _ hg hfb hberr

/-- Witness for claim C5: a continuous-target leaf with one observed feature
reaching the split check makes `update` error out. -/
theorem continuous_target_split_check_errors_witness :
    (∃ e, Leaf.update ctxC leafT xT true = .error e) ∧
    (∃ e, Leaf.hoeffding_bound ctxC (leafAbsorb ctxC leafT xT true) = .error e) ∧
    (∀ s g, Leaf.find_best_split ctxC (leafAbsorb ctxC leafT xT true) = .ok (s, g) →
      Leaf.update ctxC leafT xT true =
        .error "The target is continuous, hence there are not classes") :=
  continuous_target_split_check_errors ctxC leafT xT true
    (by decide) (by decide) (by decide) (by decide)

/-- Claim C7: `find_best_split` fails exactly when the enumerators produced
no candidate at all; with at least one candidate it returns a candidate of
maximal gain together with the `best - second best` margin of the scan; and
the failure propagates out of `update`, terminating the call with the same
error. -/
theorem find_best_split_spec (ctx : Ctx F V Y D S) (l : Leaf F V Y D S)
    (x : List (F × V)) (y : Y) :
    ((∃ e, Leaf.find_best_split ctx l = .error e) ↔ Leaf.candidates ctx l = []) ∧
    (∀ s g, Leaf.find_best_split ctx l = .ok (s, g) →
      s ∈ Leaf.candidates ctx l ∧
      gainOf (ctx.criterion l.target_dist) s =
        supGain (ctx.criterion l.target_dist) (Leaf.candidates ctx l) ∧
      g = (searchFold (ctx.criterion l.target_dist)
            (Leaf.candidates ctx l)).best_gain -
          (searchFold (ctx.criterion l.target_dist)
            (Leaf.candidates ctx l)).second_best_gain) ∧
    (∀ e, ¬ splitGuard ctx (leafAbsorb ctx l x y) →
      Leaf.find_best_split ctx (leafAbsorb ctx l x y) = .error e →
      Leaf.update ctx l x y = .error e) := by
  refine ⟨⟨?_, ?_⟩, ?_, ?_⟩
  · rintro ⟨e, he⟩
    cases hcs : Leaf.candidates ctx l with
    | nil => rfl
    | cons c rest =>
        exfalso
        unfold Leaf.find_best_split at he
        rw [hcs] at he
        obtain ⟨s0, hs0⟩ :=
          Option.isSome_iff_exists.mp (searchFold_isSome (ctx.criterion l.target_dist) c rest)
        rw [hs0] at he
        simp at he
  · intro hnil
    refine ⟨"No best split was found", ?_⟩
    unfold Leaf.find_best_split
    rw [hnil]
    rfl
  · intro s g hok
    have hsf := searchFold_inv (ctx.criterion l.target_dist) (Leaf.candidates ctx l)
    unfold Leaf.find_best_split at hok
    split at hok
    · exact absurd hok (by simp)
    · next s0 hs0 =>
        simp only [Except.ok.injEq, Prod.mk.injEq] at hok
        obtain ⟨h1, h2⟩ := hok
        subst h1
        cases hsf with
        | inl h0 =>
            rw [hs0] at h0
            exact absurd h0.1 (by simp)
        | inr h0 =>
            obtain ⟨d, hd1, hd2, hd3⟩ := h0
            rw [hs0] at hd1
            simp only [Option.some.injEq] at hd1
            subst hd1
            refine ⟨hd3, ?_, h2.symm⟩
            rw [← hd2, searchFold_best_gain]
  · intro e hg he
    exact update_search_error ctx l x y e hg he

/-- Witness for claim C7: on the concrete run the returned split is a
candidate of maximal gain. -/
theorem find_best_split_spec_witness :
    candB ∈ Leaf.candidates ctxT leafT1 ∧
    gainOf (ctxT.criterion leafT1.target_dist) candB =
      supGain (ctxT.criterion leafT1.target_dist) (Leaf.candidates ctxT leafT1) := by
  have h := (find_best_split_spec ctxT leafT1 xT true).2.1 candB ⊤ fbsT
  exact ⟨h.1, h.2.1⟩

/-- Claim C10: when the enumerators produce exactly one candidate in total,
the margin is `+inf` (the second best gain stays at `-inf`), so any update
reaching the split check splits on that sole candidate regardless of the
Hoeffding bound, the tie threshold, or the candidate's actual gain. -/
theorem single_candidate_always_splits (ctx : Ctx F V Y D S) (l : Leaf F V Y D S)
    (x : List (F × V)) (y : Y) (c : SplitCand F V) (eps : ℝ)
    (hc : Leaf.candidates ctx (leafAbsorb ctx l x y) = [c])
    (hg : ¬ splitGuard ctx (leafAbsorb ctx l x y))
    (hhb : Leaf.hoeffding_bound ctx (leafAbsorb ctx l x y) = .ok eps) :
    Leaf.update ctx l x y =
      .ok (.branch c (.leaf (childLeaf ctx (leafAbsorb ctx l x y).depth))
        (.leaf (childLeaf ctx (leafAbsorb ctx l x y).depth))) := by
  have hfbs := find_best_split_singleton ctx (leafAbsorb ctx l x y) c hc
  have h := update_reaches ctx l x y c ⊤ eps hg hfbs hhb
  rw [h, if_pos (Or.inl (EReal.coe_lt_top eps))]

/-- Witness for claim C10: the toy run has a single candidate and splits on
it even though the candidate's raw gain is 0 and the bound is positive. -/
theorem single_candidate_always_splits_witness :
    Leaf.update ctxT leafT xT true =
      .ok (.branch candB
        (.leaf (childLeaf ctxT (leafAbsorb ctxT leafT xT true).depth))
        (.leaf (childLeaf ctxT (leafAbsorb ctxT leafT xT true).depth))) :=
  single_candidate_always_splits ctxT leafT xT true candB (hb 2 1 (1/2))
    candsT (by decide) hbT

/-- Claim C9: holding the class count (at least 2) and the confidence
(strictly between 0 and 1) fixed, the Hoeffding bound is strictly decreasing
in the sample count. -/
theorem hoeffding_bound_strict_anti (c n1 n2 : ℕ) (conf : ℝ)
    (hc : 2 ≤ c) (h0 : 0 < conf) (h1 : conf < 1) (hn : 0 < n1) (hlt : n1 < n2) :
    hb c n2 conf < hb c n1 conf := by
  have hc2 : (1 : ℝ) < (c : ℝ) := by
    have h2 : (2 : ℝ) ≤ (c : ℝ) := by exact_mod_cast hc
    linarith
  have hlog : 0 < Real.log c := Real.log_pos hc2
  have hlogb : 0 < Real.logb 2 (1 / conf) :=
    Real.logb_pos (by norm_num) (one_lt_one_div h0 h1)
  have hA : 0 < (Real.log c) ^ 2 * Real.logb 2 (1 / conf) :=
    mul_pos (pow_pos hlog 2) hlogb
  have hn1 : (0 : ℝ) < (n1 : ℝ) := by exact_mod_cast hn
  have hn2 : (0 : ℝ) < (n2 : ℝ) := by
    have := hn.trans hlt
    exact_mod_cast this
  have hcast : (n1 : ℝ) < (n2 : ℝ) := by exact_mod_cast hlt
  have hdiv : (Real.log c) ^ 2 * Real.logb 2 (1 / conf) / (2 * (n2 : ℝ)) <
      (Real.log c) ^ 2 * Real.logb 2 (1 / conf) / (2 * (n1 : ℝ)) := by
    apply (div_lt_div_left hA (by linarith) (by linarith)).mpr
    linarith
  unfold hb
  exact Real.sqrt_lt_sqrt (le_of_lt (div_pos hA (by linarith))) hdiv

/-- Witness for claim C9: going from 1 to 2 samples with 2 classes and
confidence 1/2 strictly shrinks the bound. -/
theorem hoeffding_bound_strict_anti_witness : hb 2 2 (1/2) < hb 2 1 (1/2) :=
  hoeffding_bound_strict_anti 2 1 2 (1/2) (le_refl 2) (by norm_num) (by norm_num)
    one_pos one_lt_two

/-- Counterexample to claim C1: on a leaf with 2 observed classes, 1 sample
and confidence 1/2, `hoeffding_bound` does not equal
`sqrt(R² · ln(1/δ) / (2n))` — the source uses the base-2 logarithm of `1/δ`
(`math.log2`), not the natural logarithm. -/
theorem hoeffding_bound_ln_counterexample :
    Leaf.hoeffding_bound ctxT leafA ≠
      Except.ok (Real.sqrt ((Real.log 2) ^ 2 *
        Real.log (1 / ((1:ℝ)/2)) / (2 * 1))) := by
  have hcode : Leaf.hoeffding_bound ctxT leafA =
      .ok (Real.sqrt ((Real.log 2) ^ 2 / 2)) := by
    have h0 : Leaf.hoeffding_bound ctxT leafA = .ok (hb 2 1 (1/2)) := rfl
    rw [h0]
    congr 1
    unfold hb
    push_cast
    rw [show (1:ℝ)/((1:ℝ)/2) = 2 by norm_num,
      Real.logb_self_eq_one (by norm_num : (1:ℝ) < 2)]
    norm_num
  have hspec : Real.sqrt ((Real.log 2) ^ 2 * Real.log (1 / ((1:ℝ)/2)) / (2 * 1)) =
      Real.sqrt ((Real.log 2) ^ 2 * Real.log 2 / 2) := by
    rw [show (1:ℝ)/((1:ℝ)/2) = 2 by norm_num]
    norm_num
  have hl0 : 0 < Real.log 2 := Real.log_pos one_lt_two
  have hl1 : Real.log 2 < 1 := by
    have := Real.log_two_lt_d9
    linarith
  have harg : (Real.log 2) ^ 2 * Real.log 2 / 2 < (Real.log 2) ^ 2 / 2 := by
    have h2 : (Real.log 2) ^ 2 * Real.log 2 < (Real.log 2) ^ 2 * 1 :=
      mul_lt_mul_of_pos_left hl1 (pow_pos hl0 2)
    rw [mul_one] at h2
    linarith
  have hsqrt : Real.sqrt ((Real.log 2) ^ 2 * Real.log 2 / 2) <
      Real.sqrt ((Real.log 2) ^ 2 / 2) :=
    Real.sqrt_lt_sqrt (div_nonneg (mul_nonneg (sq_nonneg _) hl0.le) (by norm_num)) harg
  intro h
  rw [hcode, hspec] at h
  simp only [Except.ok.injEq] at h
  exact hsqrt.ne' h

/-- Claim C1 (amended): on a discrete target with at least one sample and at
least two observed classes, `hoeffding_bound` equals
`sqrt(R² · log₂(1/δ) / (2n))` with `R = ln(n_classes)`, `n = n_samples` and
`δ = confidence` — the base-2 logarithm of `1/δ`, where the spec states the
natural logarithm. -/
theorem hoeffding_bound_formula (ctx : Ctx F V Y D S) (l : Leaf F V Y D S)
    (hdisc : ctx.distIsCont l.target_dist = false)
    (hn : 1 ≤ l.n_samples) (hc : 2 ≤ ctx.distLen l.target_dist) :
    Leaf.hoeffding_bound ctx l =
      .ok (Real.sqrt ((Real.log (ctx.distLen l.target_dist)) ^ 2 *
        Real.logb 2 (1 / ctx.confidence) / (2 * l.n_samples))) := by
  unfold Leaf.hoeffding_bound Leaf.n_classes
  rw [if_neg (by simp [hdisc])]
  rfl

/-- Witness for claim C1 (amended): the formula evaluated on the concrete
leaf with 2 classes, 1 sample and confidence 1/2. -/
theorem hoeffding_bound_formula_witness :
    Leaf.hoeffding_bound ctxT leafA =
      .ok (Real.sqrt ((Real.log ((2:ℕ) : ℝ)) ^ 2 *
        Real.logb 2 (1 / ((1:ℝ)/2)) / (2 * ((1:ℕ) : ℝ)))) :=
  hoeffding_bound_formula ctxT leafA rfl (by decide) (by decide)

/-- Claim C8: a branch routes the example with its split test to exactly one
child, updates that child, installs the returned node in that child's slot
and returns itself as a branch with the same split; the child not selected
by the test — and hence its entire subtree — is unchanged. -/
theorem branch_update_frame (ctx : Ctx F V Y D S) (s : SplitCand F V)
    (left right : Node F V Y D S) (x : List (F × V)) (y : Y) :
    Node.update ctx (.branch s left right) x y =
      if s.test x then
        (Node.update ctx left x y).map (fun n => .branch s n right)
      else
        (Node.update ctx right x y).map (fun n => .branch s left n) := rfl

theorem mulEntry_keys {lab : Y} {v : ℝ} :
    ∀ {yp yp2 : List (Y × ℝ)}, mulEntry lab v yp = some yp2 →
      yp2.map Prod.fst = yp.map Prod.fst := by
  intro yp
  induction yp with
  | nil => intro yp2 h; simp [mulEntry] at h
  | cons q rest ih =>
      intro yp2 h
      obtain ⟨c, p⟩ := q
      simp only [mulEntry] at h
      split_ifs at h with hlab
      · simp only [Option.some.injEq] at h
        subst h
        simp
      · cases hm : mulEntry lab v rest with
        | none => rw [hm] at h; simp at h
        | some r =>
            rw [hm] at h
            simp only [Option.map_some', Option.some.injEq] at h
            subst h
            simp [ih hm]

theorem mulEntry_some_of_mem {lab : Y} (v : ℝ) :
    ∀ {yp : List (Y × ℝ)}, lab ∈ yp.map Prod.fst →
      ∃ yp2, mulEntry lab v yp = some yp2 := by
  intro yp
  induction yp with
  | nil => intro h; simp at h
  | cons q rest ih =>
      intro h
      obtain ⟨c, p⟩ := q
      by_cases hlab : lab = c
      · exact ⟨(c, p * v) :: rest, by simp [mulEntry, hlab]⟩
      · have hmem : lab ∈ rest.map Prod.fst := by
          simp only [List.map_cons, List.mem_cons] at h
          rcases h with h | h
          · exact absurd h hlab
          · exact h
        obtain ⟨r, hr⟩ := ih hmem
        exact ⟨(c, p) :: r, by simp [mulEntry, hlab, hr]⟩

theorem mulEntry_nonneg {lab : Y} {v : ℝ} (hv : 0 ≤ v) :
    ∀ {yp yp2 : List (Y × ℝ)}, (∀ q ∈ yp, 0 ≤ q.2) →
      mulEntry lab v yp = some yp2 → ∀ q ∈ yp2, 0 ≤ q.2 := by
  intro yp
  induction yp with
  | nil => intro yp2 _ h; simp [mulEntry] at h
  | cons q0 rest ih =>
      intro yp2 hnn h
      obtain ⟨c, p⟩ := q0
      simp only [mulEntry] at h
      split_ifs at h with hlab
      · simp only [Option.some.injEq] at h
        subst h
        intro q hq
        rcases List.mem_cons.mp hq with h1 | h1
        · subst h1
          exact mul_nonneg (hnn (c, p) (List.mem_cons_self _ _)) hv
        · exact hnn q (List.mem_cons_of_mem _ h1)
      · cases hm : mulEntry lab v rest with
        | none => rw [hm] at h; simp at h
        | some r =>
            rw [hm] at h
            simp only [Option.map_some', Option.some.injEq] at h
            subst h
            intro q hq
            rcases List.mem_cons.mp hq with h1 | h1
            · subst h1
              exact hnn (c, p) (List.mem_cons_self _ _)
            · exact ih (fun q2 hq2 => hnn q2 (List.mem_cons_of_mem _ hq2)) hm q h1

theorem applyItems_ok (xi : V) :
    ∀ (items : List (Y × (V → ℝ))) (yp : List (Y × ℝ)),
      (∀ q ∈ items, q.1 ∈ yp.map Prod.fst) →
      (∀ q ∈ items, 0 ≤ q.2 xi) →
      (∀ q ∈ yp, 0 ≤ q.2) →
      ∃ yp2, applyItems xi items yp = some yp2 ∧
        yp2.map Prod.fst = yp.map Prod.fst ∧ ∀ q ∈ yp2, 0 ≤ q.2 := by
  intro items
  induction items with
  | nil => intro yp _ _ hnn; exact ⟨yp, rfl, rfl, hnn⟩
  | cons it rest ih =>
      intro yp hkeys hlik hnn
      obtain ⟨lab, lik⟩ := it
      obtain ⟨yp1, hyp1⟩ :=
        mulEntry_some_of_mem (lik xi) (hkeys (lab, lik) (List.mem_cons_self _ _))
      have hkeys1 : yp1.map Prod.fst = yp.map Prod.fst := mulEntry_keys hyp1
      have hnn1 : ∀ q ∈ yp1, 0 ≤ q.2 :=
        mulEntry_nonneg (hlik (lab, lik) (List.mem_cons_self _ _)) hnn hyp1
      obtain ⟨yp2, h2, h3, h4⟩ := ih yp1
        (fun q hq => by rw [hkeys1]; exact hkeys q (List.mem_cons_of_mem _ hq))
        (fun q hq => hlik q (List.mem_cons_of_mem _ hq)) hnn1
      refine ⟨yp2, ?_, h3.trans hkeys1, h4⟩
      simp only [applyItems, hyp1]
      exact h2

theorem lookupEnum_mem : ∀ {es : List (F × S)} {i : F} {s : S},
    lookupEnum i es = some s → (i, s) ∈ es := by
  intro es
  induction es with
  | nil => intro i s h; simp [lookupEnum] at h
  | cons e rest ih =>
      intro i s h
      obtain ⟨j, t⟩ := e
      simp only [lookupEnum] at h
      split_ifs at h with hij
      · simp only [Option.some.injEq] at h
        subst h
        subst hij
        exact List.mem_cons_self _ _
      · exact List.mem_cons_of_mem _ (ih h)

theorem applyFeatures_ok (ctx : Ctx F V Y D S) (enums : List (F × S)) (K : List Y)
    (hitems : ∀ p ∈ enums, ∀ q ∈ ctx.enumItems p.2, q.1 ∈ K)
    (hlik : ∀ p ∈ enums, ∀ q ∈ ctx.enumItems p.2, ∀ v, 0 ≤ q.2 v) :
    ∀ (x : List (F × V)) (yp : List (Y × ℝ)),
      yp.map Prod.fst = K → (∀ q ∈ yp, 0 ≤ q.2) →
      ∃ yp2, applyFeatures ctx enums x yp = some yp2 ∧
        yp2.map Prod.fst = K ∧ ∀ q ∈ yp2, 0 ≤ q.2 := by
  intro x
  induction x with
  | nil => intro yp hk hnn; exact ⟨yp, rfl, hk, hnn⟩
  | cons ix rest ih =>
      intro yp hk hnn
      obtain ⟨i, xi⟩ := ix
      cases hl : lookupEnum i enums with
      | none =>
          obtain ⟨yp2, h2, h3, h4⟩ := ih yp hk hnn
          refine ⟨yp2, ?_, h3, h4⟩
          simp only [applyFeatures, hl]
          exact h2
      | some ss =>
          have hmem := lookupEnum_mem hl
          obtain ⟨yp1, h1, hk1, hnn1⟩ := applyItems_ok xi (ctx.enumItems ss) yp
            (fun q hq => by rw [hk]; exact hitems (i, ss) hmem q hq)
            (fun q hq => hlik (i, ss) hmem q hq xi) hnn
          obtain ⟨yp2, h2, h3, h4⟩ := ih yp1 (hk1.trans hk) hnn1
          refine ⟨yp2, ?_, h3, h4⟩
          simp only [applyFeatures, hl, h1]
          exact h2

theorem applyFeatures_filter (ctx : Ctx F V Y D S) (enums : List (F × S)) :
    ∀ (x : List (F × V)) (yp : List (Y × ℝ)),
      applyFeatures ctx enums x yp =
        applyFeatures ctx enums
          (x.filter (fun p => (lookupEnum p.1 enums).isSome)) yp := by
  intro x
  induction x with
  | nil => intro yp; rfl
  | cons ix rest ih =>
      intro yp
      obtain ⟨i, xi⟩ := ix
      cases hl : lookupEnum i enums with
      | none =>
          rw [show ((i, xi) :: rest).filter
                (fun p => (lookupEnum p.1 enums).isSome) =
              rest.filter (fun p => (lookupEnum p.1 enums).isSome) from by
            simp [List.filter_cons, hl]]
          simp only [applyFeatures, hl]
          exact ih yp
      | some ss =>
          rw [show ((i, xi) :: rest).filter
                (fun p => (lookupEnum p.1 enums).isSome) =
              (i, xi) :: rest.filter (fun p => (lookupEnum p.1 enums).isSome) from by
            simp [List.filter_cons, hl]]
          simp only [applyFeatures, hl]
          cases ha : applyItems xi (ctx.enumItems ss) yp with
          | none => rfl
          | some yp1 => exact ih yp1

theorem sum_map_div (l : List (Y × ℝ)) (t : ℝ) :
    (l.map (fun p => p.2 / t)).sum = (l.map Prod.snd).sum / t := by
  induction l with
  | nil => simp
  | cons q rest ih => simp [ih, add_div]

theorem sum_map_const_len (l : List (Y × ℝ)) (c : ℝ) :
    (l.map (fun _ => c)).sum = l.length * c := by
  induction l with
  | nil => simp
  | cons q rest ih =>
      simp only [List.map_cons, List.sum_cons, ih, List.length_cons]
      push_cast
      ring

/-- Counterexample to claim C6: on a leaf whose discrete target distribution
has observed no class at all (a freshly constructed leaf), the naive-Bayes
prediction is the empty mapping, whose values sum to 0, not 1 — so it is not
a proper probability distribution as the claim states. -/
theorem predict_naive_bayes_empty_counterexample :
    Leaf.predict_naive_bayes ctxT leafT [] = Except.ok [] ∧
      ((([] : List (Bool × ℝ)).map Prod.snd).sum ≠ 1) := by
  constructor
  · simp [Leaf.predict_naive_bayes, Leaf.predictDist, applyFeatures, ctxT, leafT]
  · norm_num

/-- Claim C6 (amended): for a leaf with a discrete target that has observed
at least one class, whose enumerators only track observed classes, and whose
distribution and likelihood values are non-negative (the contract of real
probability distributions), `predict_naive_bayes` succeeds with a proper
probability distribution: non-negative values summing to 1, the uniform
distribution when the total score is exactly zero; features with no
associated split enumerator are skipped, not failed on. -/
theorem predict_naive_bayes_proper (ctx : Ctx F V Y D S) (l : Leaf F V Y D S)
    (x : List (F × V))
    (hdisc : ctx.distIsCont l.target_dist = false)
    (hcls : ctx.distClasses l.target_dist ≠ [])
    (hitems : ∀ p ∈ l.split_enums, ∀ q ∈ ctx.enumItems p.2,
      q.1 ∈ ctx.distClasses l.target_dist)
    (hpmf : ∀ c, 0 ≤ ctx.distPmf l.target_dist c)
    (hlik : ∀ p ∈ l.split_enums, ∀ q ∈ ctx.enumItems p.2, ∀ v, 0 ≤ q.2 v) :
    (∃ res, Leaf.predict_naive_bayes ctx l x = .ok res ∧
      (∀ q ∈ res, 0 ≤ q.2) ∧ (res.map Prod.snd).sum = 1) ∧
    Leaf.predict_naive_bayes ctx l x =
      Leaf.predict_naive_bayes ctx l
        (x.filter (fun p => (lookupEnum p.1 l.split_enums).isSome)) := by
  constructor
  · have hkeys0 : (Leaf.predictDist ctx l).map Prod.fst =
        ctx.distClasses l.target_dist := by
      unfold Leaf.predictDist
      rw [List.map_map]
      exact List.map_id _
    have hnn0 : ∀ q ∈ Leaf.predictDist ctx l, 0 ≤ q.2 := by
      intro q hq
      simp only [Leaf.predictDist, List.mem_map] at hq
      obtain ⟨c, _, hc⟩ := hq
      cases hc
      exact hpmf c
    obtain ⟨y1, h1, hk1, hnn1⟩ := applyFeatures_ok ctx l.split_enums
      (ctx.distClasses l.target_dist) hitems hlik x (Leaf.predictDist ctx l)
      hkeys0 hnn0
    have hlen1 : y1.length = (ctx.distClasses l.target_dist).length := by
      rw [← hk1]
      simp
    have hlenpos : 0 < y1.length := by
      rw [hlen1]
      exact List.length_pos.mpr hcls
    by_cases ht : (y1.map Prod.snd).sum = 0
    · refine ⟨y1.map (fun p => (p.1, 1 / (y1.length : ℝ))), ?_, ?_, ?_⟩
      · simp only [Leaf.predict_naive_bayes, hdisc, Bool.false_eq_true,
          if_false, h1]
        rw [if_pos ht]
      · intro q hq
        simp only [List.mem_map] at hq
        obtain ⟨p, hp, hq2⟩ := hq
        cases hq2
        positivity
      · have hmm : (y1.map (fun p => (p.1, 1 / (y1.length : ℝ)))).map Prod.snd =
            y1.map (fun _ => 1 / (y1.length : ℝ)) := by
          rw [List.map_map]
          rfl
        rw [hmm, sum_map_const_len]
        have hne : (y1.length : ℝ) ≠ 0 := by
          exact_mod_cast Nat.pos_iff_ne_zero.mp hlenpos
        field_simp
    · refine ⟨y1.map (fun p => (p.1, p.2 / (y1.map Prod.snd).sum)), ?_, ?_, ?_⟩
      · simp only [Leaf.predict_naive_bayes, hdisc, Bool.false_eq_true,
          if_false, h1]
        rw [if_neg ht]
      · intro q hq
        simp only [List.mem_map] at hq
        obtain ⟨p, hp, hq2⟩ := hq
        cases hq2
        have hts : 0 ≤ (y1.map Prod.snd).sum := by
          apply List.sum_nonneg
          intro a ha
          simp only [List.mem_map] at ha
          obtain ⟨q2, hq2, ha2⟩ := ha
          cases ha2
          exact hnn1 q2 hq2
        exact div_nonneg (hnn1 p hp) hts
      · have hmm : (y1.map (fun p => (p.1, p.2 / (y1.map Prod.snd).sum))).map
            Prod.snd = y1.map (fun p => p.2 / (y1.map Prod.snd).sum) := by
          rw [List.map_map]
          rfl
        rw [hmm, sum_map_div, div_self ht]
  · unfold Leaf.predict_naive_bayes
    rw [applyFeatures_filter ctx l.split_enums x (Leaf.predictDist ctx l)]

/-- Witness for claim C6 (amended): a concrete leaf with one observed class
and one enumerator yields a proper distribution. -/
theorem predict_naive_bayes_proper_witness :
    ∃ res, Leaf.predict_naive_bayes ctxT leafNB xT = .ok res ∧
      (∀ q ∈ res, 0 ≤ q.2) ∧ (res.map Prod.snd).sum = 1 :=
  (predict_naive_bayes_proper ctxT leafNB xT rfl (by decide) (by decide)
    (fun _ => zero_le_one)
    (by
      intro p hp q hq v
      have hq2 : q = (true, fun _ => (1 : ℝ)) := List.mem_singleton.mp hq
      subst hq2
      exact zero_le_one)).1

end Creme
